import Mathlib

/-!
# Verification of the capacitated k-center solver on trees

Shallow embedding of `src/k_center_tree_uniform_cap.cpp`.

The program stores a weighted tree as adjacency lists (`tree::con`,
built by `add_edge`), precomputes an all-pairs distance matrix `D`, the
root-to-vertex ancestor chains and the sorted list of pairwise distances
with a recursive `dfs` (lines 68–87), decides feasibility of a candidate
radius with the greedy `check` (lines 90–129), and binary-searches the
sorted distance list for the answer (lines 131–140), guarded by
`assert(k * C >= n)` (line 53).

Modelling conventions:
* vertices are `1..n`; the parent sentinel `-1` of the C++ code is
  rendered as `0` (never a vertex, so the parent comparisons agree);
* although the edge-weight type is a template parameter, the program
  stores all distances in `vector<vector<int>> D` (line 59) and the
  `std::function<void(int,int,int,int)>` signature of `dfs` (line 68)
  passes the accumulated distance as `int`, so the main model uses `Int`
  distances throughout (exact for `tree<int>`, the only instantiation in
  the repository, whenever no 32-bit overflow occurs); a separate pair of
  definitions models a wider weight type for claim C6;
* the recursive `dfs` is rendered as a structurally recursive traversal
  of an explicit stack that produces the same preorder visit sequence;
  `fuel` bounds the number of visits, and any `fuel ≥ n` reproduces the
  C++ traversal of an `n`-vertex tree;
* `std::set` iteration is iteration over the sorted list of its
  (distinct) elements, and `std::sort` is rendered with a stable
  insertion sort (`insSort`); `std::sort` uses a strict comparator on
  line 120, so the relative order of equal keys is unspecified in C++,
  and the model fixes the stable order (equal keys keep the order of the
  unassigned set `U`);
* the `while (lo < hi)` binary search is rendered with fuel; the caller
  passes `distances.length`, which bounds the iteration count;
* the aborting `assert` and the out-of-bounds vector read
  `distances[lo]` that the C++ code performs when `distances` is empty
  are rendered as `Except.error` results.
-/

namespace KCenterTree

/-- Stable insertion into a list sorted by `le`: the new element goes in
front of the first element it compares `le` with, hence behind every
earlier equal element. -/
def insertLe {α : Type} (le : α → α → Bool) (a : α) : List α → List α
  | [] => [a]
  | b :: l => if le a b then a :: b :: l else b :: insertLe le a l

/-- Stable insertion sort by `le` (ascending w.r.t. `le`). -/
def insSort {α : Type} (le : α → α → Bool) : List α → List α
  | [] => []
  | a :: l => insertLe le a (insSort le l)

/-- Adjacency lists: `buildCon edges v` is the ordered `(neighbor, weight)`
list of `v` after the edges have been added with `tree::add_edge`, which
appends `(node2, W)` to `node1`'s list and `(node1, W)` to `node2`'s list. -/
def buildCon {W : Type} (edges : List (Nat × Nat × W)) : Nat → List (Nat × W) :=
  edges.foldl
    (fun con e => fun x =>
      (con x ++ (if x = e.1 then [(e.2.1, e.2.2)] else []))
        ++ (if x = e.2.1 then [(e.1, e.2.2)] else []))
    (fun _ => [])

/-- The recursive lambda `dfs` of `k_centers` (lines 68–81), as the list of
`(vertex, accumulated distance, ancestor chain)` triples in preorder.
The stack holds the pending calls `(s, p, d, ancestors[p])`; expanding the
top call first reproduces the C++ recursion order.  The chain component
mirrors `ancestors[s] = ancestors[p]; ancestors[s].push_back(s)` and is
only consulted for the traversal that starts at the root.  `fuel` bounds
the number of visits. -/
def dfsRun (con : Nat → List (Nat × Int)) :
    Nat → List (Nat × Nat × Int × List Nat) → List (Nat × Int × List Nat)
  | 0, _ => []
  | _ + 1, [] => []
  | fuel + 1, (s, p, d, anc) :: stack =>
    (s, d, anc ++ [s]) ::
      dfsRun con fuel
        ((((con s).filter (fun v => v.1 != p)).map
          (fun v => (v.1, s, d + v.2, anc ++ [s]))) ++ stack)

/-- The visit list of the traversal `dfs(beg, beg, -1, 0)` (line 85). -/
def dfsFrom (con : Nat → List (Nat × Int)) (n beg : Nat) :
    List (Nat × Int × List Nat) :=
  dfsRun con (n + 1) [(beg, 0, 0, [])]

/-- `D[beg][v]`: the distance recorded by the traversal that starts at
`beg` (`D[beg][s] = d`, line 69).  Rows are zero-initialized by `resize`
(line 84), so an unvisited vertex reads `0`. -/
def treeD (con : Nat → List (Nat × Int)) (n : Nat) (beg v : Nat) : Int :=
  (((dfsFrom con n beg).find? (fun e => e.1 == v)).map (fun e => e.2.1)).getD 0

/-- `ancestors[v]`: the root-to-`v` chain recorded during the traversal
that starts at the global root (lines 71–74); empty if `v` is unvisited. -/
def treeAncestors (con : Nat → List (Nat × Int)) (n root v : Nat) : List Nat :=
  (((dfsFrom con n root).find? (fun e => e.1 == v)).map (fun e => e.2.2)).getD []

/-- The sorted distance universe: every traversal from `beg` pushes `d`
whenever `beg < s` (line 76), and the collection is sorted ascending
(line 87). -/
def treeDistances (con : Nat → List (Nat × Int)) (n : Nat) : List Int :=
  insSort (fun a b => decide (a ≤ b))
    (((List.range' 1 n).map (fun beg =>
      (dfsFrom con n beg).filterMap
        (fun e => if beg < e.1 then some e.2.1 else none))).flatten)

/-- Lines 98–106 of `check`: for each `i` in `1..n` scan `ancestors[i]`
from the root down for the first ancestor `a` with
`D[root][i] - D[root][a] ≤ radius`; on a hit, an entry `(-D[root][a], i)`
is inserted into the candidate set `st`.  The list is produced in
`i`-order; sorting it gives the `std::set` order. -/
def phase1Entries (n root : Nat) (D : Nat → Nat → Int) (anc : Nat → List Nat)
    (radius : Int) : List (Int × Nat) :=
  (List.range' 1 n).filterMap (fun i =>
    ((anc i).find? (fun a => decide (D root i - D root a ≤ radius))).map
      (fun a => (-(D root a), i)))

/-- Indices `i` for which `check` executes the write `f[i] = it`
(line 102): exactly the vertices whose ancestor scan hits. -/
def fWrites (n root : Nat) (D : Nat → Nat → Int) (anc : Nat → List Nat)
    (radius : Int) : List Nat :=
  (List.range' 1 n).filter (fun i =>
    ((anc i).find? (fun a => decide (D root i - D root a ≤ radius))).isSome)

/-- The size of the vector `f` allocated by `check`: `vector<int> f(n)`
(line 95), so its valid indices are `0..n-1`. -/
def fSize (n : Nat) : Nat := n

/-- The `std::set<pair<weight_type,int>>` order on candidate entries. -/
def lexLe (a b : Int × Nat) : Bool :=
  decide (a.1 < b.1 ∨ (a.1 = b.1 ∧ a.2 ≤ b.2))

/-- The greedy loop of `check` (lines 110–127).  State: remaining
iterations (`k - iter`), the unassigned set `U` (ascending list), the
remaining candidate entries of `st` (ascending `std::set` order, so the
pop of `st.begin()` is the head), the `assignment` vector and the
`centers` accumulated so far.  Each round pops `center`, collects the
unassigned vertices within `radius` of it, sorts them by decreasing
distance from the root, keeps at most `C` (`reachable.resize(C)`),
assigns them to `center` and removes them from `U`.  The C++ code
dereferences `st.begin()` even when `st` is empty (undefined behavior);
the model stops there. -/
def greedyGo (C root : Nat) (D : Nat → Nat → Int) (radius : Int) :
    Nat → List Nat → List (Int × Nat) → List Nat → List Nat →
    List Nat × List Nat × List Nat
  | 0, U, _, asg, centers => (centers, asg, U)
  | iters + 1, U, st, asg, centers =>
    if U.isEmpty then (centers, asg, U)
    else
      match st with
      | [] => (centers, asg, U)
      | e :: st' =>
        let center := e.2
        let chosen :=
          (insSort (fun i j => decide (D root j ≤ D root i))
            (U.filter (fun x => decide (D center x ≤ radius)))).take C
        greedyGo C root D radius iters
          (U.filter (fun x => !chosen.contains x))
          st'
          (chosen.foldl (fun a x => a.set x center) asg)
          (centers ++ [center])

/-- `check(radius)` (lines 90–129): returns `U.empty()` together with the
`centers` and `assignment` it produced.  `centers` is cleared on entry;
`assignment` persists across calls and is threaded through. -/
def checkRun (n k C root : Nat) (D : Nat → Nat → Int) (anc : Nat → List Nat)
    (radius : Int) (asg : List Nat) : Bool × List Nat × List Nat :=
  let st := insSort lexLe (phase1Entries n root D anc radius)
  let r := greedyGo C root D radius k (List.range' 1 n) st asg []
  (r.2.2.isEmpty, r.1, r.2.1)

/-- The binary search of lines 134–138: `while (lo < hi) { mid = (lo+hi)>>1;
if (check(distances[mid])) hi = mid; else lo = mid+1; }`, threading the
`assignment` vector mutated by every `check` call.  `fuel` bounds the
iteration count; any `fuel ≥ hi - lo` reproduces the loop. -/
def bsGo (n k C root : Nat) (D : Nat → Nat → Int) (anc : Nat → List Nat)
    (dists : List Int) :
    Nat → Nat → Nat → List Nat → Nat × List Nat
  | 0, lo, _, asg => (lo, asg)
  | fuel + 1, lo, hi, asg =>
    if lo < hi then
      let mid := (lo + hi) / 2
      let r := checkRun n k C root D anc (dists.getD mid 0) asg
      if r.1 then bsGo n k C root D anc dists fuel lo mid r.2.2
      else bsGo n k C root D anc dists fuel (mid + 1) hi r.2.2
    else (lo, asg)

/-- Lines 131–140: run the binary search over the sorted distance list,
re-run `check` at the answer to materialize `centers`/`assignment`, and
return `(distances[lo], centers, assignment)`.  When `distances` is empty
(a single-vertex tree) the C++ code reads `distances[0]` out of bounds;
the model returns an error. -/
def kCentersSearch (n k C root : Nat) (D : Nat → Nat → Int)
    (anc : Nat → List Nat) (dists : List Int) :
    Except String (Int × List Nat × List Nat) :=
  match dists with
  | [] => Except.error "distances index out of range"
  | _ :: _ =>
    let p := bsGo n k C root D anc dists dists.length 0 (dists.length - 1)
      (List.replicate (n + 1) 0)
    let r := checkRun n k C root D anc (dists.getD p.1 0) p.2
    Except.ok (dists.getD p.1 0, r.2.1, r.2.2)

/-- `tree::k_centers(C, k)` (lines 52–141): `assert(k * C >= n)` (the
aborting assertion is an error result), then the distance precomputation
with root `1` (line 64) followed by the radius search. -/
def kCenters (edges : List (Nat × Nat × Int)) (n C k : Nat) :
    Except String (Int × List Nat × List Nat) :=
  if k * C < n then Except.error "assertion failed: k * C >= n"
  else
    kCentersSearch n k C 1 (treeD (buildCon edges) n)
      (treeAncestors (buildCon edges) n 1) (treeDistances (buildCon edges) n)

/-! ## The generic weight type (claim C6)

`weight_type` may be any numeric type, e.g. `long long`.  The source
nevertheless declares `vector<vector<int>> D` (line 59) and the recursive
calls of `dfs` go through `function<void(int,int,int,int)>` (line 68), so
the accumulated distance is converted to `int` at every edge step.  The
definitions below model the traversal for `weight_type = long long`
(values in `Int`), with the conversion to 32-bit `int` applied where the
source applies it, next to the traversal the claim describes, in which
every sum stays in the weight type. -/

/-- Conversion of a wider signed integer to C++ `int`: reduction modulo
`2^32` into `[-2^31, 2^31)` (two's complement, as defined since C++20). -/
def toInt32 (x : Int) : Int := (x + 2 ^ 31) % 2 ^ 32 - 2 ^ 31

/-- The `dfs` traversal as executed for `weight_type = long long`: the
value `d + v.snd` is passed through the `int` parameter of the
`std::function`, i.e. converted with `toInt32`. -/
def dfsRunNarrowed (con : Nat → List (Nat × Int)) :
    Nat → List (Nat × Nat × Int × List Nat) → List (Nat × Int × List Nat)
  | 0, _ => []
  | _ + 1, [] => []
  | fuel + 1, (s, p, d, anc) :: stack =>
    (s, d, anc ++ [s]) ::
      dfsRunNarrowed con fuel
        ((((con s).filter (fun v => v.1 != p)).map
          (fun v => (v.1, s, toInt32 (d + v.2), anc ++ [s]))) ++ stack)

/-- `D[beg][v]` as the source computes it for `weight_type = long long`. -/
def treeDNarrowed (con : Nat → List (Nat × Int)) (n : Nat) (beg v : Nat) : Int :=
  (((dfsRunNarrowed con (n + 1) [(beg, 0, 0, [])]).find? (fun e => e.1 == v)).map
    (fun e => e.2.1)).getD 0

/-- Modelled from the spec: the same traversal with every distance sum
carried out in the weight type itself (`long long`, modelled as `Int`),
as claim C6 requires — no value is converted to a narrower type. -/
def dfsRunExact (con : Nat → List (Nat × Int)) :
    Nat → List (Nat × Nat × Int × List Nat) → List (Nat × Int × List Nat)
  | 0, _ => []
  | _ + 1, [] => []
  | fuel + 1, (s, p, d, anc) :: stack =>
    (s, d, anc ++ [s]) ::
      dfsRunExact con fuel
        ((((con s).filter (fun v => v.1 != p)).map
          (fun v => (v.1, s, d + v.2, anc ++ [s]))) ++ stack)

/-- Modelled from the spec: `D[beg][v]` with all arithmetic in the weight
type. -/
def treeDExact (con : Nat → List (Nat × Int)) (n : Nat) (beg v : Nat) : Int :=
  (((dfsRunExact con (n + 1) [(beg, 0, 0, [])]).find? (fun e => e.1 == v)).map
    (fun e => e.2.1)).getD 0

/-! ## Auxiliary definitions for the statements -/

/-- The sequence of `assignment[it] = center` writes of a run, applied to
the assignment vector in execution order (later writes win). -/
def applyUpds (asg : List Nat) (upds : List (Nat × Nat)) : List Nat :=
  upds.foldl (fun a p => a.set p.1 p.2) asg

/-- The last element of the sorted distance list, i.e. the largest
pairwise distance (`0` for an empty list). -/
def lastD (dists : List Int) : Int := dists.getD (dists.length - 1) 0

/-- Modelled from the spec (sections 1 and 8): radius `r` is feasible for
the tree with distance matrix `D` when at most `k` centers can be opened
on vertices and every vertex `1..n` assigned to an open center within
distance `r`, with no center serving more than `C` vertices. -/
def specFeasible (n : Nat) (D : Nat → Nat → Int) (k C : Nat) (r : Int) : Prop :=
  ∃ centers : List Nat, ∃ asg : Nat → Nat,
    centers.length ≤ k ∧ centers.Nodup ∧ (∀ c ∈ centers, c ∈ List.range' 1 n) ∧
    (∀ v ∈ List.range' 1 n, asg v ∈ centers ∧ D (asg v) v ≤ r) ∧
    (∀ c : Nat, ((List.range' 1 n).filter (fun v => asg v = c)).length ≤ C)

/-! ## Concrete instances -/

/-- The example tree of `usage_example()` (lines 144–169): root `1` joined
to `2`, `3`, `4` with weights `1`, `3`, `1`. -/
def demoEdges : List (Nat × Nat × Int) := [(1, 2, 1), (1, 3, 3), (1, 4, 1)]

/-- The path `1 —1— 2 —1— 3` (used for claim C3). -/
def pathEdges : List (Nat × Nat × Int) := [(1, 2, 1), (2, 3, 1)]

/-- A star with pairwise distinct distances from the root: `1` joined to
`2`, `3`, `4` with weights `3`, `4`, `2` (used for claim C4). -/
def starEdges : List (Nat × Nat × Int) := [(1, 2, 3), (1, 3, 4), (1, 4, 2)]

/-- A single edge of weight `2^32`, for the `weight_type = long long`
instantiation (claim C6). -/
def wideEdges : List (Nat × Nat × Int) := [(1, 2, 2 ^ 32)]

/-! ## Permutation lemmas for the stable insertion sort -/

theorem insertLe_perm {α : Type} (le : α → α → Bool) (a : α) (l : List α) :
    List.Perm (insertLe le a l) (a :: l) := by
  induction l with
  | nil => simp [insertLe]
  | cons b t ih =>
    simp only [insertLe]
    by_cases h : le a b
    · simp [h]
    · simp only [h, Bool.false_eq_true, if_false]
      exact (ih.cons b).trans (List.Perm.swap a b t)

theorem insSort_perm {α : Type} (le : α → α → Bool) (l : List α) :
    List.Perm (insSort le l) l := by
  induction l with
  | nil => exact List.Perm.refl _
  | cons a t ih => exact (insertLe_perm le a (insSort le t)).trans (ih.cons a)

theorem mem_insSort {α : Type} (le : α → α → Bool) {a : α} {l : List α} :
    a ∈ insSort le l ↔ a ∈ l :=
  (insSort_perm le l).mem_iff

theorem length_insSort {α : Type} (le : α → α → Bool) (l : List α) :
    (insSort le l).length = l.length :=
  (insSort_perm le l).length_eq

theorem nodup_insSort {α : Type} (le : α → α → Bool) {l : List α}
    (h : l.Nodup) : (insSort le l).Nodup :=
  ((insSort_perm le l).nodup_iff).mpr h

/-! ## Lemmas about the assignment-vector writes -/

theorem applyUpds_nil (asg : List Nat) : applyUpds asg [] = asg := rfl

theorem applyUpds_cons (asg : List Nat) (p : Nat × Nat) (upds : List (Nat × Nat)) :
    applyUpds asg (p :: upds) = applyUpds (asg.set p.1 p.2) upds := rfl

theorem applyUpds_append (asg : List Nat) (u1 u2 : List (Nat × Nat)) :
    applyUpds asg (u1 ++ u2) = applyUpds (applyUpds asg u1) u2 := by
  simp [applyUpds, List.foldl_append]

theorem applyUpds_length (asg : List Nat) (upds : List (Nat × Nat)) :
    (applyUpds asg upds).length = asg.length := by
  induction upds generalizing asg with
  | nil => rfl
  | cons p t ih => rw [applyUpds_cons, ih, List.length_set]

theorem applyUpds_getD_of_not_mem (asg : List Nat) (upds : List (Nat × Nat))
    (v : Nat) (h : v ∉ upds.map Prod.fst) :
    (applyUpds asg upds).getD v 0 = asg.getD v 0 := by
  induction upds generalizing asg with
  | nil => rfl
  | cons p t ih =>
    simp only [List.map_cons, List.mem_cons, not_or] at h
    rw [applyUpds_cons, ih _ h.2]
    simp only [List.getD_eq_getElem?_getD]
    rw [List.getElem?_set_ne (fun he => h.1 he.symm)]

theorem applyUpds_getD_of_mem (asg : List Nat) (upds : List (Nat × Nat))
    (v c : Nat) (hv : v < asg.length) (hmem : (v, c) ∈ upds)
    (hnd : (upds.map Prod.fst).Nodup) :
    (applyUpds asg upds).getD v 0 = c := by
  induction upds generalizing asg with
  | nil => cases hmem
  | cons p t ih =>
    rw [applyUpds_cons]
    rcases List.mem_cons.mp hmem with heq | ht
    · have hvp : p.1 = v := by rw [← heq]
      have hnotin : v ∉ t.map Prod.fst := by
        rw [List.map_cons] at hnd
        have := (List.nodup_cons.mp hnd).1
        rwa [hvp] at this
      rw [applyUpds_getD_of_not_mem _ _ _ hnotin]
      simp only [List.getD_eq_getElem?_getD]
      rw [hvp]
      rw [List.getElem?_set_self hv]
      have : p.2 = c := by rw [← heq]
      simp [this]
    · rw [List.map_cons] at hnd
      have hp1 : p.1 ≠ v := by
        intro he
        have hmemv : v ∈ t.map Prod.fst := List.mem_map.mpr ⟨(v, c), ht, rfl⟩
        have := (List.nodup_cons.mp hnd).1
        rw [he] at this
        exact this hmemv
      exact ih (asg.set p.1 p.2) (by simpa using hv) ht
        (List.nodup_cons.mp hnd).2

/-! ## Counting helpers -/

theorem nodup_length_le_of_subset {α : Type} [DecidableEq α] {l1 l2 : List α} (h1 : l1.Nodup)
    (hsub : ∀ x ∈ l1, x ∈ l2) : l1.length ≤ l2.length := by
  calc l1.length = l1.toFinset.card := (List.toFinset_card_of_nodup h1).symm
    _ ≤ l2.toFinset.card := Finset.card_le_card (fun x hx => by
        simp only [List.mem_toFinset] at hx ⊢
        exact hsub x hx)
    _ ≤ l2.length := List.toFinset_card_le l2

theorem length_filter_not_contains {U ch : List Nat} (hU : U.Nodup)
    (hch : ch.Nodup) (hsub : ∀ x ∈ ch, x ∈ U) :
    (U.filter (fun x => !ch.contains x)).length = U.length - ch.length := by
  have hsplit := @List.length_eq_length_filter_add Nat U (fun x => ch.contains x)
  have hperm : List.Perm (U.filter (fun x => ch.contains x)) ch := by
    apply List.perm_of_nodup_nodup_toFinset_eq (hU.filter _) hch
    ext x
    simp only [List.mem_toFinset, List.mem_filter, List.contains_iff_exists_mem_beq]
    constructor
    · rintro ⟨-, y, hy, he⟩
      rwa [show x = y from by simpa using he]
    · intro hx
      exact ⟨hsub x hx, x, hx, by simp⟩
  have := hperm.length_eq
  omega

/-! ## The master lemma about the greedy loop

For any run of the greedy loop: the centers produced are the second
components of the popped prefix of `st`; the assignment evolves by a
sequence of writes whose targets are distinct unassigned vertices within
`radius` of their recorded center; at most `C` vertices are written per
center (when the candidate vertices are distinct); and every vertex of
`U` either survives in the final unassigned set or is written. -/

theorem map_fst_map_pair {β : Type} (c : β) (l : List Nat) :
    (l.map (fun x => (x, c))).map Prod.fst = l := by
  induction l with
  | nil => rfl
  | cons a t ih => simp only [List.map_cons, ih]

theorem greedyGo_spec (C root : Nat) (D : Nat → Nat → Int) (radius : Int) :
    ∀ (iters : Nat) (U : List Nat) (st : List (Int × Nat)) (asg : List Nat)
      (centers : List Nat), U.Nodup →
    ∃ m upds,
      (greedyGo C root D radius iters U st asg centers).1
          = centers ++ ((st.map Prod.snd).take m) ∧
      m ≤ iters ∧
      (greedyGo C root D radius iters U st asg centers).2.1 = applyUpds asg upds ∧
      (upds.map Prod.fst).Nodup ∧
      (∀ p ∈ upds, p.1 ∈ U ∧ D p.2 p.1 ≤ radius ∧ p.2 ∈ (st.map Prod.snd).take m) ∧
      ((st.map Prod.snd).Nodup →
        ∀ c : Nat, (upds.filter (fun p => decide (p.2 = c))).length ≤ C) ∧
      (∀ x ∈ U, x ∈ (greedyGo C root D radius iters U st asg centers).2.2
          ∨ x ∈ upds.map Prod.fst) := by
  intro iters
  induction iters with
  | zero =>
    intro U st asg centers hU
    exact ⟨0, [], by simp [greedyGo], Nat.le_refl 0, rfl, List.nodup_nil,
      by simp, fun _ _ => by simp, fun x hx => Or.inl (by simpa [greedyGo] using hx)⟩
  | succ iters ih =>
    intro U st asg centers hU
    by_cases hUe : U.isEmpty
    · refine ⟨0, [], by simp [greedyGo, hUe], Nat.zero_le _,
        by simp [greedyGo, hUe, applyUpds],
        List.nodup_nil, by simp, fun _ _ => by simp,
        fun x hx => Or.inl (by simpa [greedyGo, hUe] using hx)⟩
    · match st with
      | [] =>
        refine ⟨0, [], by simp [greedyGo, hUe], Nat.zero_le _,
          by simp [greedyGo, hUe, applyUpds],
          List.nodup_nil, by simp, fun _ _ => by simp,
          fun x hx => Or.inl (by simpa [greedyGo, hUe] using hx)⟩
      | e :: st' =>
        set chosen : List Nat :=
          (insSort (fun i j => decide (D root j ≤ D root i))
            (U.filter (fun x => decide (D e.2 x ≤ radius)))).take C with hchosen
        set U1 : List Nat := U.filter (fun x => !chosen.contains x) with hU1
        set asg1 : List Nat := chosen.foldl (fun a x => a.set x e.2) asg with hasg1
        have hstep : greedyGo C root D radius (iters + 1) U (e :: st') asg centers
            = greedyGo C root D radius iters U1 st' asg1 (centers ++ [e.2]) := by
          simp only [greedyGo, hUe, Bool.false_eq_true, if_false]
        have hchsub : ∀ x ∈ chosen, x ∈ U := by
          intro x hx
          have := List.mem_of_mem_take hx
          rw [mem_insSort] at this
          exact (List.mem_filter.mp this).1
        have hchd : ∀ x ∈ chosen, D e.2 x ≤ radius := by
          intro x hx
          have := List.mem_of_mem_take hx
          rw [mem_insSort] at this
          exact of_decide_eq_true (List.mem_filter.mp this).2
        have hchnd : chosen.Nodup :=
          (List.take_sublist _ _).nodup (nodup_insSort _ (hU.filter _))
        have hchlen : chosen.length ≤ C := by
          rw [hchosen, List.length_take]
          exact Nat.min_le_left _ _
        have hbnot : ∀ b : Bool, ((!b) = true) ↔ b = false := by decide
        have hmemU1 : ∀ x, x ∈ U1 ↔ (x ∈ U ∧ x ∉ chosen) := by
          intro x
          rw [hU1, List.mem_filter, hbnot, Bool.eq_false_iff]
          constructor
          · rintro ⟨h1, h2⟩
            exact ⟨h1, fun hc => h2 (List.elem_eq_true_of_mem hc)⟩
          · rintro ⟨h1, h2⟩
            exact ⟨h1, fun hc => h2 (List.mem_of_elem_eq_true hc)⟩
        have hU1nd : U1.Nodup := hU.filter _
        have happly : asg1 = applyUpds asg (chosen.map (fun x => (x, e.2))) := by
          rw [hasg1, applyUpds, List.foldl_map]
        obtain ⟨m', upds', h1', h2', h3', h4', h5', h6', h7'⟩ :=
          ih U1 st' asg1 (centers ++ [e.2]) hU1nd
        refine ⟨m' + 1, (chosen.map (fun x => (x, e.2))) ++ upds', ?_, ?_, ?_, ?_, ?_, ?_, ?_⟩
        · rw [hstep, h1']
          simp [List.take_succ_cons, List.append_assoc]
        · omega
        · rw [hstep, h3', happly, applyUpds_append]
        · rw [List.map_append]
          have hfst : (chosen.map (fun x => (x, e.2))).map Prod.fst = chosen :=
            map_fst_map_pair e.2 chosen
          rw [hfst]
          refine hchnd.append h4' ?_
          intro a ha hb
          obtain ⟨p, hp, hpe⟩ := List.mem_map.mp hb
          have := (h5' p hp).1
          rw [hpe, hmemU1] at this
          exact this.2 ha
        · intro p hp
          rcases List.mem_append.mp hp with hpb | hpu
          · obtain ⟨x, hx, hxe⟩ := List.mem_map.mp hpb
            refine ⟨?_, ?_, ?_⟩
            · rw [← hxe]; exact hchsub x hx
            · rw [← hxe]; exact hchd x hx
            · rw [← hxe]
              simp [List.take_succ_cons]
          · obtain ⟨hin, hd, hsn⟩ := h5' p hpu
            refine ⟨((hmemU1 p.1).mp hin).1, hd, ?_⟩
            simp only [List.map_cons, List.take_succ_cons, List.mem_cons]
            exact Or.inr hsn
        · intro hnd c
          rw [List.map_cons] at hnd
          obtain ⟨hnotin, hnd'⟩ := List.nodup_cons.mp hnd
          rw [List.filter_append, List.length_append]
          by_cases hc : c = e.2
          · have hblock : ((chosen.map (fun x => (x, e.2))).filter
                (fun p => decide (p.2 = c))).length ≤ C := by
              calc ((chosen.map (fun x => (x, e.2))).filter
                    (fun p => decide (p.2 = c))).length
                  ≤ (chosen.map (fun x => (x, e.2))).length :=
                    List.length_filter_le _ _
                _ = chosen.length := List.length_map _ _
                _ ≤ C := hchlen
            have hrest : upds'.filter (fun p => decide (p.2 = c)) = [] := by
              rw [List.filter_eq_nil_iff]
              intro p hp hdec
              have hps := (h5' p hp).2.2
              have : p.2 = c := of_decide_eq_true hdec
              rw [this, hc] at hps
              exact hnotin (List.mem_of_mem_take hps)
            rw [hrest]
            simpa using hblock
          · have hblock : (chosen.map (fun x => (x, e.2))).filter
                (fun p => decide (p.2 = c)) = [] := by
              rw [List.filter_eq_nil_iff]
              intro p hp hdec
              obtain ⟨x, hx, hxe⟩ := List.mem_map.mp hp
              have h2c : p.2 = c := of_decide_eq_true hdec
              rw [← hxe] at h2c
              have : e.2 = c := by simpa using h2c
              exact hc this.symm
            rw [hblock]
            simpa using h6' hnd' c
        · intro x hx
          by_cases hxc : x ∈ chosen
          · refine Or.inr ?_
            rw [List.map_append]
            refine List.mem_append_left _ ?_
            rw [map_fst_map_pair e.2 chosen]
            exact hxc
          · have hx1 : x ∈ U1 := (hmemU1 x).mpr ⟨hx, hxc⟩
            rcases h7' x hx1 with h | h
            · rw [hstep]; exact Or.inl h
            · refine Or.inr ?_
              rw [List.map_append]
              exact List.mem_append_right _ h

/-! ## The greedy loop empties `U` when every entry covers every vertex -/

theorem greedyGo_drains (C root : Nat) (D : Nat → Nat → Int) (radius : Int) :
    ∀ (iters : Nat) (U : List Nat) (st : List (Int × Nat)) (asg : List Nat)
      (centers : List Nat), U.Nodup →
    (∀ x ∈ U, ∀ e ∈ st, D e.2 x ≤ radius) →
    U.length ≤ iters * C → U.length ≤ st.length * C →
    (greedyGo C root D radius iters U st asg centers).2.2 = [] := by
  intro iters
  induction iters with
  | zero =>
    intro U st asg centers hU hcov h1 h2
    have hUnil : U = [] := List.length_eq_zero.mp (by simpa using h1)
    simp [greedyGo, hUnil]
  | succ iters ih =>
    intro U st asg centers hU hcov h1 h2
    by_cases hUe : U.isEmpty
    · have hUnil : U = [] := List.isEmpty_iff.mp hUe
      simp [greedyGo, hUe, hUnil]
    · match st with
      | [] =>
        exfalso
        have hUnil : U = [] := List.length_eq_zero.mp (by simpa using h2)
        rw [hUnil] at hUe
        simp at hUe
      | e :: st' =>
        set chosen : List Nat :=
          (insSort (fun i j => decide (D root j ≤ D root i))
            (U.filter (fun x => decide (D e.2 x ≤ radius)))).take C with hchosen
        set U1 : List Nat := U.filter (fun x => !chosen.contains x) with hU1
        set asg1 : List Nat := chosen.foldl (fun a x => a.set x e.2) asg with hasg1
        have hstep : greedyGo C root D radius (iters + 1) U (e :: st') asg centers
            = greedyGo C root D radius iters U1 st' asg1 (centers ++ [e.2]) := by
          simp only [greedyGo, hUe, Bool.false_eq_true, if_false]
        have hreachall : U.filter (fun x => decide (D e.2 x ≤ radius)) = U := by
          rw [List.filter_eq_self]
          intro x hx
          exact decide_eq_true (hcov x hx e (List.mem_cons_self e st'))
        have hchlen : chosen.length = min C U.length := by
          rw [hchosen, List.length_take, hreachall, length_insSort]
        have hchnd : chosen.Nodup := by
          rw [hchosen, hreachall]
          exact (List.take_sublist _ _).nodup (nodup_insSort _ hU)
        have hchsub : ∀ x ∈ chosen, x ∈ U := by
          intro x hx
          rw [hchosen, hreachall] at hx
          have := List.mem_of_mem_take hx
          rwa [mem_insSort] at this
        have hU1len : U1.length = U.length - chosen.length := by
          rw [hU1]
          exact length_filter_not_contains hU hchnd hchsub
        have hU1nd : U1.Nodup := hU.filter _
        have hU1sub : ∀ x ∈ U1, x ∈ U := by
          intro x hx
          rw [hU1] at hx
          exact (List.mem_filter.mp hx).1
        rw [hstep]
        apply ih U1 st' asg1 (centers ++ [e.2]) hU1nd
        · intro x hx f hf
          exact hcov x (hU1sub x hx) f (List.mem_cons_of_mem e hf)
        · rw [hU1len, hchlen]
          have hsm : (iters + 1) * C = iters * C + C := Nat.succ_mul iters C
          rcases Nat.le_total C U.length with hcase | hcase
          · rw [Nat.min_eq_left hcase]; omega
          · rw [Nat.min_eq_right hcase]; omega
        · rw [hU1len, hchlen]
          have hsm : (e :: st').length * C = st'.length * C + C := by
            rw [List.length_cons, Nat.succ_mul]
          rcases Nat.le_total C U.length with hcase | hcase
          · rw [Nat.min_eq_left hcase]; omega
          · rw [Nat.min_eq_right hcase]; omega

/-! ## The boolean outcome and the final `U` do not depend on `assignment` -/

theorem greedyGo_indep (C root : Nat) (D : Nat → Nat → Int) (radius : Int) :
    ∀ (iters : Nat) (U : List Nat) (st : List (Int × Nat))
      (asg asg2 : List Nat) (centers : List Nat),
      (greedyGo C root D radius iters U st asg centers).1
        = (greedyGo C root D radius iters U st asg2 centers).1 ∧
      (greedyGo C root D radius iters U st asg centers).2.2
        = (greedyGo C root D radius iters U st asg2 centers).2.2 := by
  intro iters
  induction iters with
  | zero => intro U st asg asg2 centers; exact ⟨rfl, rfl⟩
  | succ iters ih =>
    intro U st asg asg2 centers
    by_cases hUe : U.isEmpty
    · simp [greedyGo, hUe]
    · match st with
      | [] => simp [greedyGo, hUe]
      | e :: st' =>
        simp only [greedyGo, hUe, Bool.false_eq_true, if_false]
        exact ih _ _ _ _ _

/-! ## The greedy loop preserves the length of `assignment` -/

theorem greedyGo_asg_length (C root : Nat) (D : Nat → Nat → Int) (radius : Int) :
    ∀ (iters : Nat) (U : List Nat) (st : List (Int × Nat)) (asg : List Nat)
      (centers : List Nat),
      ((greedyGo C root D radius iters U st asg centers).2.1).length = asg.length := by
  intro iters
  induction iters with
  | zero => intro U st asg centers; rfl
  | succ iters ih =>
    intro U st asg centers
    by_cases hUe : U.isEmpty
    · simp [greedyGo, hUe]
    · match st with
      | [] => simp [greedyGo, hUe]
      | e :: st' =>
        simp only [greedyGo, hUe, Bool.false_eq_true, if_false]
        rw [ih]
        set chosen : List Nat :=
          (insSort (fun i j => decide (D root j ≤ D root i))
            (U.filter (fun x => decide (D e.2 x ≤ radius)))).take C with hchosen
        have : chosen.foldl (fun a x => a.set x e.2) asg
            = applyUpds asg (chosen.map (fun x => (x, e.2))) := by
          rw [applyUpds, List.foldl_map]
        rw [this, applyUpds_length]

/-! ## Properties of the candidate-entry construction -/

theorem phase1Entries_snd_eq (root : Nat) (D : Nat → Nat → Int)
    (anc : Nat → List Nat) (radius : Int) (i : Nat)
    (e : Int × Nat)
    (he : (((anc i).find? (fun a => decide (D root i - D root a ≤ radius))).map
      (fun a => (-(D root a), i))) = some e) : e.2 = i := by
  rcases hfind : (anc i).find? (fun a => decide (D root i - D root a ≤ radius)) with _ | a
  · rw [hfind] at he; cases he
  · rw [hfind] at he
    simp only [Option.map_some'] at he
    injection he with he2
    rw [← he2]

theorem filterMap_snd_sublist {β : Type} (f : Nat → Option (β × Nat)) (l : List Nat)
    (hf : ∀ i e, f i = some e → e.2 = i) :
    List.Sublist ((l.filterMap f).map Prod.snd) l := by
  induction l with
  | nil => simp
  | cons a t ih =>
    rw [List.filterMap_cons]
    cases hfa : f a with
    | none => exact ih.cons a
    | some e =>
      rw [List.map_cons]
      rw [hf a e hfa]
      exact ih.cons₂ a

theorem phase1Entries_snd_nodup (n root : Nat) (D : Nat → Nat → Int)
    (anc : Nat → List Nat) (radius : Int) :
    ((phase1Entries n root D anc radius).map Prod.snd).Nodup := by
  have hsub : List.Sublist
      ((phase1Entries n root D anc radius).map Prod.snd) (List.range' 1 n) :=
    filterMap_snd_sublist _ _ (fun i e he => phase1Entries_snd_eq root D anc radius i e he)
  exact hsub.nodup (List.nodup_range' 1 n)

theorem phase1Entries_snd_range (n root : Nat) (D : Nat → Nat → Int)
    (anc : Nat → List Nat) (radius : Int) (e : Int × Nat)
    (he : e ∈ phase1Entries n root D anc radius) : e.2 ∈ List.range' 1 n := by
  obtain ⟨i, hi, hmap⟩ := List.mem_filterMap.mp he
  rw [phase1Entries_snd_eq root D anc radius i e hmap]
  exact hi

theorem length_filterMap_of_isSome {α β : Type} (f : α → Option β) (l : List α)
    (h : ∀ a ∈ l, (f a).isSome) : (l.filterMap f).length = l.length := by
  induction l with
  | nil => rfl
  | cons a t ih =>
    rw [List.filterMap_cons]
    cases hfa : f a with
    | none =>
      exfalso
      have := h a (List.mem_cons_self a t)
      rw [hfa] at this
      cases this
    | some b =>
      rw [List.length_cons, ih (fun x hx => h x (List.mem_cons_of_mem a hx)),
        List.length_cons]

theorem phase1Entries_length (n root : Nat) (D : Nat → Nat → Int)
    (anc : Nat → List Nat) (radius : Int)
    (h1 : ∀ i ∈ List.range' 1 n, i ∈ anc i) (hr : 0 ≤ radius) :
    (phase1Entries n root D anc radius).length = n := by
  rw [phase1Entries, length_filterMap_of_isSome, List.length_range']
  intro i hi
  rw [Option.isSome_map']
  rw [List.find?_isSome]
  refine ⟨i, h1 i hi, ?_⟩
  apply decide_eq_true
  simpa using hr

/-! ## The feasibility flag is assignment-independent, and true at a
radius that covers every pair -/

theorem checkRun_fst_eq (n k C root : Nat) (D : Nat → Nat → Int)
    (anc : Nat → List Nat) (radius : Int) (asg : List Nat) :
    (checkRun n k C root D anc radius asg).1
      = ((greedyGo C root D radius k (List.range' 1 n)
          (insSort lexLe (phase1Entries n root D anc radius)) asg []).2.2).isEmpty := rfl

theorem checkRun_centers_eq (n k C root : Nat) (D : Nat → Nat → Int)
    (anc : Nat → List Nat) (radius : Int) (asg : List Nat) :
    (checkRun n k C root D anc radius asg).2.1
      = (greedyGo C root D radius k (List.range' 1 n)
          (insSort lexLe (phase1Entries n root D anc radius)) asg []).1 := rfl

theorem checkRun_asg_eq (n k C root : Nat) (D : Nat → Nat → Int)
    (anc : Nat → List Nat) (radius : Int) (asg : List Nat) :
    (checkRun n k C root D anc radius asg).2.2
      = (greedyGo C root D radius k (List.range' 1 n)
          (insSort lexLe (phase1Entries n root D anc radius)) asg []).2.1 := rfl

theorem checkRun_fst_indep (n k C root : Nat) (D : Nat → Nat → Int)
    (anc : Nat → List Nat) (radius : Int) (asg asg2 : List Nat) :
    (checkRun n k C root D anc radius asg).1
      = (checkRun n k C root D anc radius asg2).1 := by
  rw [checkRun_fst_eq, checkRun_fst_eq,
    (greedyGo_indep C root D radius k (List.range' 1 n)
      (insSort lexLe (phase1Entries n root D anc radius)) asg asg2 []).2]

theorem checkRun_fst_true (n k C root : Nat) (D : Nat → Nat → Int)
    (anc : Nat → List Nat) (radius : Int) (asg : List Nat)
    (h1 : ∀ i ∈ List.range' 1 n, i ∈ anc i) (hr : 0 ≤ radius)
    (hcov : ∀ c ∈ List.range' 1 n, ∀ v ∈ List.range' 1 n, D c v ≤ radius)
    (hkC : n ≤ k * C) :
    (checkRun n k C root D anc radius asg).1 = true := by
  rw [checkRun_fst_eq, List.isEmpty_iff]
  have hstlen : (insSort lexLe (phase1Entries n root D anc radius)).length = n := by
    rw [length_insSort]
    exact phase1Entries_length n root D anc radius h1 hr
  apply greedyGo_drains
  · exact List.nodup_range' 1 n
  · intro x hx e he
    rw [mem_insSort] at he
    exact hcov e.2 (phase1Entries_snd_range n root D anc radius e he) x hx
  · rw [List.length_range']
    exact hkC
  · rw [List.length_range', hstlen]
    rcases Nat.eq_zero_or_pos C with hc | hc
    · rw [hc, Nat.mul_zero] at hkC
      omega
    · exact Nat.le_mul_of_pos_right n hc

/-! ## The binary search of the radius-search driver -/

theorem getD_mem_of_lt {l : List Int} {i : Nat} (h : i < l.length) :
    l.getD i 0 ∈ l := by
  rw [List.getD_eq_getElem?_getD, List.getElem?_eq_getElem h]
  simp

theorem bsGo_step (n k C root : Nat) (D : Nat → Nat → Int) (anc : Nat → List Nat)
    (dists : List Int) (fuel lo hi : Nat) (asg : List Nat) (h : lo < hi) :
    bsGo n k C root D anc dists (fuel + 1) lo hi asg
      = (if (checkRun n k C root D anc (dists.getD ((lo + hi) / 2) 0) asg).1
         then bsGo n k C root D anc dists fuel lo ((lo + hi) / 2)
           (checkRun n k C root D anc (dists.getD ((lo + hi) / 2) 0) asg).2.2
         else bsGo n k C root D anc dists fuel ((lo + hi) / 2 + 1) hi
           (checkRun n k C root D anc (dists.getD ((lo + hi) / 2) 0) asg).2.2) := by
  rw [bsGo, if_pos h]

theorem bsGo_none (n k C root : Nat) (D : Nat → Nat → Int) (anc : Nat → List Nat)
    (dists : List Int) (fuel lo hi : Nat) (asg : List Nat) (h : ¬ lo < hi) :
    bsGo n k C root D anc dists (fuel + 1) lo hi asg = (lo, asg) := by
  rw [bsGo, if_neg h]

theorem checkRun_asg_length (n k C root : Nat) (D : Nat → Nat → Int)
    (anc : Nat → List Nat) (radius : Int) (asg : List Nat) :
    ((checkRun n k C root D anc radius asg).2.2).length = asg.length := by
  rw [checkRun_asg_eq, greedyGo_asg_length]

theorem bsGo_asg_length (n k C root : Nat) (D : Nat → Nat → Int)
    (anc : Nat → List Nat) (dists : List Int) :
    ∀ (fuel lo hi : Nat) (asg : List Nat),
      ((bsGo n k C root D anc dists fuel lo hi asg).2).length = asg.length := by
  intro fuel
  induction fuel with
  | zero => intro lo hi asg; rfl
  | succ fuel ih =>
    intro lo hi asg
    by_cases h : lo < hi
    · rw [bsGo_step n k C root D anc dists fuel lo hi asg h]
      by_cases hr : (checkRun n k C root D anc (dists.getD ((lo + hi) / 2) 0) asg).1
      · rw [if_pos hr, ih, checkRun_asg_length]
      · rw [if_neg hr, ih, checkRun_asg_length]
    · rw [bsGo_none n k C root D anc dists fuel lo hi asg h]

theorem bsGo_spec (n k C root : Nat) (D : Nat → Nat → Int) (anc : Nat → List Nat)
    (dists : List Int) :
    ∀ (fuel lo hi : Nat) (asg : List Nat), lo ≤ hi → hi < dists.length →
      hi - lo ≤ fuel →
      (∀ a : List Nat, (checkRun n k C root D anc (dists.getD hi 0) a).1 = true) →
      lo ≤ (bsGo n k C root D anc dists fuel lo hi asg).1 ∧
      (bsGo n k C root D anc dists fuel lo hi asg).1 ≤ hi ∧
      (∀ a : List Nat, (checkRun n k C root D anc
          (dists.getD ((bsGo n k C root D anc dists fuel lo hi asg).1) 0) a).1 = true) := by
  intro fuel
  induction fuel with
  | zero =>
    intro lo hi asg hlohi hhi hfuel hflag
    have heq : lo = hi := by omega
    refine ⟨Nat.le_refl _, ?_, ?_⟩
    · exact hlohi
    · intro a
      have : (bsGo n k C root D anc dists 0 lo hi asg).1 = hi := heq
      rw [this]
      exact hflag a
  | succ fuel ih =>
    intro lo hi asg hlohi hhi hfuel hflag
    by_cases h : lo < hi
    · rw [bsGo_step n k C root D anc dists fuel lo hi asg h]
      have hmid1 : lo ≤ (lo + hi) / 2 := by omega
      have hmid2 : (lo + hi) / 2 < hi := by omega
      by_cases hr : (checkRun n k C root D anc (dists.getD ((lo + hi) / 2) 0) asg).1
      · rw [if_pos hr]
        have hflagmid : ∀ a : List Nat,
            (checkRun n k C root D anc (dists.getD ((lo + hi) / 2) 0) a).1 = true := by
          intro a
          rw [checkRun_fst_indep n k C root D anc _ a asg]
          exact hr
        obtain ⟨hga, hgb, hgc⟩ := ih lo ((lo + hi) / 2) _ hmid1
          (lt_trans hmid2 hhi) (by omega) hflagmid
        exact ⟨hga, le_trans hgb (le_of_lt hmid2), hgc⟩
      · rw [if_neg hr]
        obtain ⟨hga, hgb, hgc⟩ := ih ((lo + hi) / 2 + 1) hi _ (by omega) hhi
          (by omega) hflag
        exact ⟨le_trans (by omega) hga, hgb, hgc⟩
    · rw [bsGo_none n k C root D anc dists fuel lo hi asg h]
      have hga : lo ≤ hi := hlohi
      have heq : lo = hi := by omega
      refine ⟨Nat.le_refl _, hga, ?_⟩
      intro a
      have : (lo, asg).1 = hi := heq
      rw [this]
      exact hflag a

/-! ## The combined specification of a successful radius search

Whenever `kCentersSearch` returns `ok (r, cs, asg)` and the precomputed
data has the shape the distance precomputation produces on a
(nonnegatively weighted) tree — every vertex lies on its own ancestor
chain, the distance list is nonnegative and its last element dominates
every matrix entry — then at most `k` centers are opened, they are
pairwise distinct, no center serves more than `C` vertices, and every
vertex is within distance `r` of its assigned center. -/

theorem kCentersSearch_ok_spec (n k C root : Nat) (D : Nat → Nat → Int)
    (anc : Nat → List Nat) (dists : List Int) (r : Int) (cs asg : List Nat)
    (h1 : ∀ i ∈ List.range' 1 n, i ∈ anc i)
    (hnn : ∀ x ∈ dists, 0 ≤ x)
    (hcov : ∀ c ∈ List.range' 1 n, ∀ v ∈ List.range' 1 n, D c v ≤ lastD dists)
    (hkC : n ≤ k * C)
    (hok : kCentersSearch n k C root D anc dists = Except.ok (r, cs, asg)) :
    cs.length ≤ k ∧ cs.Nodup ∧
    (∀ c : Nat, ((List.range' 1 n).filter
        (fun v => decide (asg.getD v 0 = c))).length ≤ C) ∧
    (∀ v ∈ List.range' 1 n, D (asg.getD v 0) v ≤ r) := by
  cases dists with
  | nil => simp [kCentersSearch] at hok
  | cons d ds =>
    have hok2 : Except.ok (ε := String)
        (((d :: ds).getD (bsGo n k C root D anc (d :: ds) (d :: ds).length 0
            ((d :: ds).length - 1) (List.replicate (n + 1) 0)).1 0,
          (checkRun n k C root D anc
            ((d :: ds).getD (bsGo n k C root D anc (d :: ds) (d :: ds).length 0
              ((d :: ds).length - 1) (List.replicate (n + 1) 0)).1 0)
            (bsGo n k C root D anc (d :: ds) (d :: ds).length 0
              ((d :: ds).length - 1) (List.replicate (n + 1) 0)).2).2.1,
          (checkRun n k C root D anc
            ((d :: ds).getD (bsGo n k C root D anc (d :: ds) (d :: ds).length 0
              ((d :: ds).length - 1) (List.replicate (n + 1) 0)).1 0)
            (bsGo n k C root D anc (d :: ds) (d :: ds).length 0
              ((d :: ds).length - 1) (List.replicate (n + 1) 0)).2).2.2))
        = Except.ok (r, cs, asg) := hok
    set p := bsGo n k C root D anc (d :: ds) (d :: ds).length 0
      ((d :: ds).length - 1) (List.replicate (n + 1) 0) with hp
    set rad := (d :: ds).getD p.1 0 with hradDef
    rw [Except.ok.injEq, Prod.mk.injEq, Prod.mk.injEq] at hok2
    obtain ⟨hrEq, hcsEq, hasgEq⟩ := hok2
    have hhi0lt : (d :: ds).length - 1 < (d :: ds).length := by
      simp
    have hlast : (d :: ds).getD ((d :: ds).length - 1) 0 = lastD (d :: ds) := rfl
    have hlastnn : 0 ≤ lastD (d :: ds) := by
      rw [← hlast]
      exact hnn _ (getD_mem_of_lt hhi0lt)
    have hflag0 : ∀ a : List Nat,
        (checkRun n k C root D anc ((d :: ds).getD ((d :: ds).length - 1) 0) a).1
          = true := by
      intro a
      rw [hlast]
      exact checkRun_fst_true n k C root D anc _ a h1 hlastnn hcov hkC
    obtain ⟨hge, hle, hflag⟩ := bsGo_spec n k C root D anc (d :: ds)
      (d :: ds).length 0 ((d :: ds).length - 1) (List.replicate (n + 1) 0)
      (Nat.zero_le _) hhi0lt (by omega) hflag0
    have hfflag : (checkRun n k C root D anc rad p.2).1 = true := by
      rw [hradDef]
      exact hflag p.2
    have hUempty : (greedyGo C root D rad k (List.range' 1 n)
        (insSort lexLe (phase1Entries n root D anc rad)) p.2 []).2.2 = [] := by
      rw [checkRun_fst_eq, List.isEmpty_iff] at hfflag
      exact hfflag
    have hp2len : p.2.length = n + 1 := by
      rw [hp, bsGo_asg_length]
      exact List.length_replicate _ _
    have hstnd : ((insSort lexLe (phase1Entries n root D anc rad)).map
        Prod.snd).Nodup := by
      have hperm := (insSort_perm lexLe (phase1Entries n root D anc rad)).map Prod.snd
      exact (hperm.nodup_iff).mpr (phase1Entries_snd_nodup n root D anc rad)
    obtain ⟨m, upds, hm1, hm2, hm3, hm4, hm5, hm6, hm7⟩ :=
      greedyGo_spec C root D rad k (List.range' 1 n)
        (insSort lexLe (phase1Entries n root D anc rad)) p.2 []
        (List.nodup_range' 1 n)
    have hcs2 : cs = ((insSort lexLe (phase1Entries n root D anc rad)).map
        Prod.snd).take m := by
      rw [← hcsEq, checkRun_centers_eq, hm1, List.nil_append]
    have hasg2 : asg = applyUpds p.2 upds := by
      rw [← hasgEq, checkRun_asg_eq, hm3]
    have hassign : ∀ v ∈ List.range' 1 n, ∃ cv : Nat,
        (v, cv) ∈ upds ∧ asg.getD v 0 = cv := by
      intro v hv
      rcases hm7 v hv with habs | hin
      · rw [hUempty] at habs
        cases habs
      · obtain ⟨pv, hpv, hpveq⟩ := List.mem_map.mp hin
        refine ⟨pv.2, ?_, ?_⟩
        · have hpair : (v, pv.2) = pv := by
            rw [← hpveq]
          rw [hpair]
          exact hpv
        · rw [hasg2]
          apply applyUpds_getD_of_mem p.2 upds v pv.2 ?_ ?_ hm4
          · rw [hp2len]
            have := List.mem_range'_1.mp hv
            omega
          · have hpair : (v, pv.2) = pv := by
              rw [← hpveq]
            rw [hpair]
            exact hpv
    refine ⟨?_, ?_, ?_, ?_⟩
    · rw [hcs2, List.length_take]
      exact le_trans (Nat.min_le_left _ _) hm2
    · rw [hcs2]
      exact (List.take_sublist _ _).nodup hstnd
    · intro c
      have hcap := hm6 hstnd c
      have hsub : ∀ q ∈ ((List.range' 1 n).filter
          (fun v => decide (asg.getD v 0 = c))).map (fun v => (v, c)),
          q ∈ upds.filter (fun p => decide (p.2 = c)) := by
        intro q hq
        obtain ⟨v, hv, hq2⟩ := List.mem_map.mp hq
        rw [List.mem_filter] at hv
        obtain ⟨hvrange, hvdec⟩ := hv
        have hveq : asg.getD v 0 = c := of_decide_eq_true hvdec
        obtain ⟨cv, hcv1, hcv2⟩ := hassign v hvrange
        have hcvc : cv = c := by rw [← hcv2, hveq]
        rw [List.mem_filter]
        constructor
        · rw [← hq2, ← hcvc]
          exact hcv1
        · rw [← hq2]
          simp
      have hinj : Function.Injective (fun v : Nat => (v, c)) := by
        intro a b hab
        injection hab
      have hndm : (((List.range' 1 n).filter
          (fun v => decide (asg.getD v 0 = c))).map (fun v => (v, c))).Nodup :=
        ((List.nodup_range' 1 n).filter _).map hinj
      calc ((List.range' 1 n).filter (fun v => decide (asg.getD v 0 = c))).length
          = (((List.range' 1 n).filter
              (fun v => decide (asg.getD v 0 = c))).map (fun v => (v, c))).length :=
            (List.length_map _ _).symm
        _ ≤ (upds.filter (fun p => decide (p.2 = c))).length :=
            nodup_length_le_of_subset hndm hsub
        _ ≤ C := hcap
    · intro v hv
      obtain ⟨cv, hcv1, hcv2⟩ := hassign v hv
      rw [hcv2, ← hrEq]
      exact (hm5 (v, cv) hcv1).2.1

/-- A successful radius search returns pairwise-distinct centers, with
no hypotheses on the precomputed data. -/
theorem kCentersSearch_ok_nodup (n k C root : Nat) (D : Nat → Nat → Int)
    (anc : Nat → List Nat) (dists : List Int) (r : Int) (cs asg : List Nat)
    (hok : kCentersSearch n k C root D anc dists = Except.ok (r, cs, asg)) :
    cs.Nodup := by
  cases dists with
  | nil => simp [kCentersSearch] at hok
  | cons d ds =>
    have hok2 : Except.ok (ε := String)
        (((d :: ds).getD (bsGo n k C root D anc (d :: ds) (d :: ds).length 0
            ((d :: ds).length - 1) (List.replicate (n + 1) 0)).1 0,
          (checkRun n k C root D anc
            ((d :: ds).getD (bsGo n k C root D anc (d :: ds) (d :: ds).length 0
              ((d :: ds).length - 1) (List.replicate (n + 1) 0)).1 0)
            (bsGo n k C root D anc (d :: ds) (d :: ds).length 0
              ((d :: ds).length - 1) (List.replicate (n + 1) 0)).2).2.1,
          (checkRun n k C root D anc
            ((d :: ds).getD (bsGo n k C root D anc (d :: ds) (d :: ds).length 0
              ((d :: ds).length - 1) (List.replicate (n + 1) 0)).1 0)
            (bsGo n k C root D anc (d :: ds) (d :: ds).length 0
              ((d :: ds).length - 1) (List.replicate (n + 1) 0)).2).2.2))
        = Except.ok (r, cs, asg) := hok
    set p := bsGo n k C root D anc (d :: ds) (d :: ds).length 0
      ((d :: ds).length - 1) (List.replicate (n + 1) 0) with hp
    set rad := (d :: ds).getD p.1 0 with hradDef
    rw [Except.ok.injEq, Prod.mk.injEq, Prod.mk.injEq] at hok2
    obtain ⟨hrEq, hcsEq, hasgEq⟩ := hok2
    obtain ⟨m, upds, hm1, hm2, hm3, hm4, hm5, hm6, hm7⟩ :=
      greedyGo_spec C root D rad k (List.range' 1 n)
        (insSort lexLe (phase1Entries n root D anc rad)) p.2 []
        (List.nodup_range' 1 n)
    have hstnd : ((insSort lexLe (phase1Entries n root D anc rad)).map
        Prod.snd).Nodup := by
      have hperm := (insSort_perm lexLe (phase1Entries n root D anc rad)).map Prod.snd
      exact (hperm.nodup_iff).mpr (phase1Entries_snd_nodup n root D anc rad)
    have hcs2 : cs = ((insSort lexLe (phase1Entries n root D anc rad)).map
        Prod.snd).take m := by
      rw [← hcsEq, checkRun_centers_eq, hm1, List.nil_append]
    rw [hcs2]
    exact (List.take_sublist _ _).nodup hstnd

/-! ## The claims -/

/-- Claim C1: for every tree — presented by its edge list, with the
hypotheses stating that the precomputed data has the shape the
precomputation produces on a (nonnegatively weighted) tree — and every
`k`, `C` with `k·C ≥ n`, whenever `k_centers` returns a result, the
returned assignment assigns at most `C` of the vertices `1..n` to any
single center, and the returned centers sequence has length at most `k`. -/
theorem kCenters_capacity_and_cardinality (edges : List (Nat × Nat × Int))
    (n C k : Nat) (r : Int) (cs asg : List Nat)
    (h1 : ∀ i ∈ List.range' 1 n, i ∈ treeAncestors (buildCon edges) n 1 i)
    (hnn : ∀ x ∈ treeDistances (buildCon edges) n, 0 ≤ x)
    (hcov : ∀ c ∈ List.range' 1 n, ∀ v ∈ List.range' 1 n,
      treeD (buildCon edges) n c v ≤ lastD (treeDistances (buildCon edges) n))
    (hkC : n ≤ k * C)
    (hok : kCenters edges n C k = Except.ok (r, cs, asg)) :
    cs.length ≤ k ∧
    (∀ c : Nat, ((List.range' 1 n).filter
      (fun v => decide (asg.getD v 0 = c))).length ≤ C) := by
  have hsearch : kCentersSearch n k C 1 (treeD (buildCon edges) n)
      (treeAncestors (buildCon edges) n 1) (treeDistances (buildCon edges) n)
      = Except.ok (r, cs, asg) := by
    rw [kCenters, if_neg (by omega)] at hok
    exact hok
  obtain ⟨ha, hb, hc, hd⟩ := kCentersSearch_ok_spec n k C 1
    (treeD (buildCon edges) n) (treeAncestors (buildCon edges) n 1)
    (treeDistances (buildCon edges) n) r cs asg h1 hnn hcov hkC hsearch
  exact ⟨ha, hc⟩

theorem kCenters_capacity_and_cardinality_witness :
    ([3, 1] : List Nat).length ≤ 2 ∧
    (∀ c : Nat, ((List.range' 1 4).filter
      (fun v => decide (([0, 1, 1, 3, 1] : List Nat).getD v 0 = c))).length ≤ 3) :=
  kCenters_capacity_and_cardinality demoEdges 4 3 2 1 [3, 1] [0, 1, 1, 3, 1]
    (by decide) (by decide) (by decide) (by decide) (by rfl)

/-- Claim C2: for every tree (hypotheses as in claim C1) and every `k`,
`C` with `k·C ≥ n`, and every vertex `v` in `1..n`, the distance recorded
in the matrix between the returned center `assignment[v]` and `v` is at
most the radius returned by `k_centers`. -/
theorem kCenters_radius_bound (edges : List (Nat × Nat × Int))
    (n C k : Nat) (r : Int) (cs asg : List Nat)
    (h1 : ∀ i ∈ List.range' 1 n, i ∈ treeAncestors (buildCon edges) n 1 i)
    (hnn : ∀ x ∈ treeDistances (buildCon edges) n, 0 ≤ x)
    (hcov : ∀ c ∈ List.range' 1 n, ∀ v ∈ List.range' 1 n,
      treeD (buildCon edges) n c v ≤ lastD (treeDistances (buildCon edges) n))
    (hkC : n ≤ k * C)
    (hok : kCenters edges n C k = Except.ok (r, cs, asg)) :
    ∀ v ∈ List.range' 1 n, treeD (buildCon edges) n (asg.getD v 0) v ≤ r := by
  have hsearch : kCentersSearch n k C 1 (treeD (buildCon edges) n)
      (treeAncestors (buildCon edges) n 1) (treeDistances (buildCon edges) n)
      = Except.ok (r, cs, asg) := by
    rw [kCenters, if_neg (by omega)] at hok
    exact hok
  obtain ⟨ha, hb, hc, hd⟩ := kCentersSearch_ok_spec n k C 1
    (treeD (buildCon edges) n) (treeAncestors (buildCon edges) n 1)
    (treeDistances (buildCon edges) n) r cs asg h1 hnn hcov hkC hsearch
  exact hd

theorem kCenters_radius_bound_witness :
    treeD (buildCon demoEdges) 4 (([0, 1, 1, 3, 1] : List Nat).getD 3 0) 3 ≤ 1 :=
  kCenters_radius_bound demoEdges 4 3 2 1 [3, 1] [0, 1, 1, 3, 1]
    (by decide) (by decide) (by decide) (by decide) (by rfl) 3 (by decide)

/-- Claim C3 is refuted by this evaluation: on the path `1 —1— 2 —1— 3`
with `C = 3`, `k = 1`, `k_centers` returns radius `2`, although radius
`1` is feasible (open the single center at vertex `2`, which serves all
three vertices within distance `1`); hence the returned radius is not
the minimum feasible radius.  (Here the optimum `1` even belongs to the
distance universe `[1, 1, 2]`, so it is the greedy feasibility check
that is at fault, not only the search space.) -/
theorem kCenters_not_optimal :
    kCenters pathEdges 3 3 1 = Except.ok (2, [1], [0, 1, 1, 1]) ∧
    specFeasible 3 (treeD (buildCon pathEdges) 3) 1 3 1 ∧
    (1 : Int) < 2 := by
  refine ⟨by rfl, ?_, by norm_num⟩
  refine ⟨[2], fun _ => 2, by decide, by decide, by decide, ?_, ?_⟩
  · intro v hv
    have h3 : List.range' 1 3 = [1, 2, 3] := rfl
    rw [h3] at hv
    simp only [List.mem_cons, List.not_mem_nil, or_false] at hv
    rcases hv with rfl | rfl | rfl
    · exact ⟨by decide, by decide⟩
    · exact ⟨by decide, by decide⟩
    · exact ⟨by decide, by decide⟩
  · intro c
    by_cases hc : c = 2
    · subst hc
      decide
    · have hnil : (List.range' 1 3).filter (fun v => decide ((2 : Nat) = c)) = [] := by
        rw [List.filter_eq_nil_iff]
        intro a ha hdec
        exact hc (of_decide_eq_true hdec).symm
      have : ((List.range' 1 3).filter (fun v => decide ((2 : Nat) = c))).length ≤ 3 := by
        rw [hnil]
        decide
      simpa using this

/-- Claim C4 is refuted by this evaluation: on the star `1` joined to
`2`, `3`, `4` with weights `3`, `4`, `2` (pairwise distinct distances
from the root, so no sorting tie is involved), with `k = 3` and `C = 2`,
`check(2)` succeeds but `check(4)` fails, although `2 ≤ 4`; both `2` and
`4` belong to the distance universe of this tree.  The feasibility
oracle is therefore not monotone in the radius. -/
theorem check_not_monotone :
    ((2 : Int) ≤ 4) ∧
    (checkRun 4 3 2 1 (treeD (buildCon starEdges) 4)
      (treeAncestors (buildCon starEdges) 4 1) 2 (List.replicate 5 0)).1 = true ∧
    (checkRun 4 3 2 1 (treeD (buildCon starEdges) 4)
      (treeAncestors (buildCon starEdges) 4 1) 4 (List.replicate 5 0)).1 = false :=
  ⟨by norm_num, by rfl, by rfl⟩

/-- Claim C5: for every tree and every `k`, `C` with `k·C < n`,
`k_centers(C, k)` fails on the `assert` and returns no result. -/
theorem kCenters_assert_rejects (edges : List (Nat × Nat × Int)) (n C k : Nat)
    (h : k * C < n) :
    kCenters edges n C k = Except.error "assertion failed: k * C >= n" := by
  rw [kCenters, if_pos h]

theorem kCenters_assert_rejects_witness :
    1 * 1 < 4 ∧
    kCenters demoEdges 4 1 1 = Except.error "assertion failed: k * C >= n" :=
  ⟨by decide, kCenters_assert_rejects demoEdges 4 1 1 (by decide)⟩

/-- Claim C6 is refuted by this evaluation: for `weight_type = long long`
and the single edge `(1, 2)` of weight `2^32`, the traversal as the
source executes it (distances narrowed to 32-bit `int` by the
`std::function<void(int,int,int,int)>` signature and stored in
`vector<vector<int>> D`) records `D[1][2] = 0`, while the traversal with
all arithmetic in the weight type records `2^32`; the distances are
therefore not exact in the weight type. -/
theorem narrowed_distance_wrong :
    treeDNarrowed (buildCon wideEdges) 2 1 2 = 0 ∧
    treeDExact (buildCon wideEdges) 2 1 2 = 2 ^ 32 ∧
    (0 : Int) ≠ 2 ^ 32 :=
  ⟨by rfl, by rfl, by decide⟩

/-- Claim C8 is refuted by this evaluation: on the repository's own
example tree (4 vertices) at radius `1`, the initialization loop of
`check` writes `f[4]`, but `f` is allocated with size `4` (valid indices
`0..3`), so the write is out of bounds. -/
theorem f_write_out_of_bounds :
    4 ∈ fWrites 4 1 (treeD (buildCon demoEdges) 4)
      (treeAncestors (buildCon demoEdges) 4 1) 1 ∧
    ¬ (4 < fSize 4) :=
  ⟨by decide, by decide⟩

/-- Claim C9 is refuted by this evaluation: for the single-vertex tree
(`n = 1`, no edges) the distance universe is empty, and `k_centers`
(with `k = C = 1`, so the assert passes) reaches the read
`distances[lo]` with `lo = 0` on the empty vector — an out-of-bounds
access, modelled as the error result. -/
theorem empty_distance_universe :
    treeDistances (buildCon ([] : List (Nat × Nat × Int))) 1 = [] ∧
    kCenters [] 1 1 1 = Except.error "distances index out of range" :=
  ⟨by rfl, by rfl⟩

/-- Claim C10: for every tree and every `k`, `C`, whenever `k_centers`
returns a result, the returned centers sequence contains no duplicate
vertex (each vertex enters the candidate set at most once, and every pop
permanently removes that vertex's entry). -/
theorem kCenters_centers_nodup (edges : List (Nat × Nat × Int)) (n C k : Nat)
    (r : Int) (cs asg : List Nat)
    (hok : kCenters edges n C k = Except.ok (r, cs, asg)) : cs.Nodup := by
  rw [kCenters] at hok
  by_cases hg : k * C < n
  · rw [if_pos hg] at hok
    cases hok
  · rw [if_neg hg] at hok
    exact kCentersSearch_ok_nodup n k C 1 (treeD (buildCon edges) n)
      (treeAncestors (buildCon edges) n 1) (treeDistances (buildCon edges) n)
      r cs asg hok

theorem kCenters_centers_nodup_witness : ([3, 1] : List Nat).Nodup :=
  kCenters_centers_nodup demoEdges 4 3 2 1 [3, 1] [0, 1, 1, 3, 1] (by rfl)

end KCenterTree
